import Mathlib

/-!
Verification of the Loki Titanium adapter (src/lib/adapter.js).

JavaScript strings are modelled as `List Char`; the opaque `JSON.parse`
applied to one completed line is modelled as an abstract function
`parse : String → α`, and `JSON.stringify` of a document as an abstract
`stringify : α → String`.  Asynchronous write/read completion results are
modelled as boolean scripts consumed in operation order.
-/

set_option maxHeartbeats 1000000

namespace Adapter

/-- Model of the source function `_chunk(initial, input, consumer)`
    (src/lib/adapter.js lines 294-320): walks the input characters,
    accumulating every non-newline character onto the temporary buffer
    `tmp` (seeded with the `initial` argument); on a newline it either
    skips (when `tmp` is empty) or emits `JSON.parse(tmp)` via the
    consumer and resets `tmp`.  The first component of the result is the
    sequence of consumer calls in order; the second is the returned
    leftover buffer. -/
def chunk (parse : String → α) : List Char → List Char → List α × List Char
  | [], tmp => ([], tmp)
  | c :: rest, tmp =>
    if c = '\n' then
      if tmp = [] then chunk parse rest []
      else
        let r := chunk parse rest []
        (parse (String.mk tmp) :: r.1, r.2)
    else chunk parse rest (tmp ++ [c])

/-- Repeated invocation of `chunk` over a list of consecutive input
    chunks, passing each call's returned leftover as the next call's
    initial buffer; collects every emitted document in order. -/
def chunkFold (parse : String → α) : List Char → List (List Char) → List α × List Char
  | pend, [] => ([], pend)
  | pend, ck :: rest =>
    let r1 := chunk parse ck pend
    let r2 := chunkFold parse r1.2 rest
    (r1.1 ++ r2.1, r2.2)

/-- Modelled from the spec: the newline-separated segments of a character
    stream, in order (the number of segments is one more than the number
    of newlines).  Used only as the specification-side description of
    what the codec must emit. -/
def splitLines : List Char → List (List Char)
  | [] => [[]]
  | c :: rest =>
    if c = '\n' then [] :: splitLines rest
    else
      match splitLines rest with
      | [] => [[c]]
      | s :: ss => (c :: s) :: ss

/-- All segments except the last: the complete (newline-terminated) lines. -/
def initSegs : List (List Char) → List (List Char)
  | [] => []
  | [_] => []
  | s :: rest => s :: initSegs rest

/-- The final segment: the unterminated trailing bytes. -/
def lastSeg : List (List Char) → List Char
  | [] => []
  | [s] => s
  | _ :: rest => lastSeg rest

theorem splitLines_ne_nil (l : List Char) : splitLines l ≠ [] := by
  cases l with
  | nil => simp [splitLines]
  | cons c rest =>
    simp only [splitLines]
    by_cases hc : c = '\n'
    · simp [hc]
    · simp only [hc, if_false]
      cases h : splitLines rest <;> simp

theorem initSegs_cons (s : List Char) (rest : List (List Char)) (h : rest ≠ []) :
    initSegs (s :: rest) = s :: initSegs rest := by
  cases rest with
  | nil => exact absurd rfl h
  | cons a b => rfl

theorem lastSeg_cons (s : List Char) (rest : List (List Char)) (h : rest ≠ []) :
    lastSeg (s :: rest) = lastSeg rest := by
  cases rest with
  | nil => exact absurd rfl h
  | cons a b => rfl

theorem splitLines_no_newline (l : List Char) (h : '\n' ∉ l) : splitLines l = [l] := by
  induction l with
  | nil => rfl
  | cons c rest ih =>
    have hc : c ≠ '\n' := fun hc => h (hc ▸ List.mem_cons_self c rest)
    have hr : '\n' ∉ rest := fun hr => h (List.mem_cons_of_mem c hr)
    simp only [splitLines, hc, if_false, ih hr]

theorem splitLines_append_newline (a b : List Char) (h : '\n' ∉ a) :
    splitLines (a ++ '\n' :: b) = a :: splitLines b := by
  induction a with
  | nil => simp [splitLines]
  | cons c rest ih =>
    have hc : c ≠ '\n' := fun hc => h (hc ▸ List.mem_cons_self c rest)
    have hr : '\n' ∉ rest := fun hr => h (List.mem_cons_of_mem c hr)
    simp [splitLines, hc, ih hr]

theorem chunk_append (parse : String → α) (a b : List Char) : ∀ tmp,
    chunk parse (a ++ b) tmp
      = ((chunk parse a tmp).1 ++ (chunk parse b (chunk parse a tmp).2).1,
         (chunk parse b (chunk parse a tmp).2).2) := by
  induction a with
  | nil => intro tmp; simp [chunk]
  | cons c rest ih =>
    intro tmp
    by_cases hc : c = '\n'
    · subst hc
      by_cases ht : tmp = []
      · subst ht
        simp [chunk, ih]
      · simp [chunk, ht, ih []]
    · simp [chunk, hc, ih (tmp ++ [c])]

theorem chunk_no_newline (parse : String → α) (input : List Char) : ∀ tmp,
    '\n' ∉ input → chunk parse input tmp = ([], tmp ++ input) := by
  induction input with
  | nil => intro tmp _; simp [chunk]
  | cons c rest ih =>
    intro tmp h
    have hc : c ≠ '\n' := fun hc => h (hc ▸ List.mem_cons_self c rest)
    have hr : '\n' ∉ rest := fun hr => h (List.mem_cons_of_mem c hr)
    simp [chunk, hc, ih (tmp ++ [c]) hr]

theorem chunk_leftover_no_newline (parse : String → α) (input : List Char) : ∀ tmp,
    '\n' ∉ tmp → '\n' ∉ (chunk parse input tmp).2 := by
  induction input with
  | nil => intro tmp h; simpa [chunk] using h
  | cons c rest ih =>
    intro tmp h
    by_cases hc : c = '\n'
    · subst hc
      by_cases ht : tmp = []
      · subst ht; simpa [chunk] using ih [] (List.not_mem_nil '\n')
      · simpa [chunk, ht] using ih [] (List.not_mem_nil '\n')
    · have : '\n' ∉ tmp ++ [c] := by
        intro hm
        rcases List.mem_append.mp hm with hm | hm
        · exact h hm
        · exact hc (List.mem_singleton.mp hm).symm
      simpa [chunk, hc] using ih (tmp ++ [c]) this

/-- The codec's exact behaviour, stated against the spec-side segment
    description: every newline-terminated segment of `tmp ++ input` is
    emitted in the same call (blank segments skipped), and the returned
    buffer is exactly the final, unterminated segment. -/
theorem chunk_segments (parse : String → α) (input : List Char) : ∀ tmp, '\n' ∉ tmp →
    chunk parse input tmp
      = (((initSegs (splitLines (tmp ++ input))).filter (fun s => s ≠ [])).map
           (fun s => parse (String.mk s)),
         lastSeg (splitLines (tmp ++ input))) := by
  induction input with
  | nil =>
    intro tmp h
    simp [chunk, splitLines_no_newline tmp h, initSegs, lastSeg]
  | cons c rest ih =>
    intro tmp h
    by_cases hc : c = '\n'
    · subst hc
      have hsplit : splitLines (tmp ++ '\n' :: rest) = tmp :: splitLines rest :=
        splitLines_append_newline tmp rest h
      have hne := splitLines_ne_nil rest
      rw [show tmp ++ '\n' :: rest = tmp ++ '\n' :: rest from rfl, hsplit,
        initSegs_cons tmp _ hne, lastSeg_cons tmp _ hne]
      by_cases ht : tmp = []
      · subst ht
        simpa [chunk] using ih [] (List.not_mem_nil '\n')
      · have hih := ih [] (List.not_mem_nil '\n')
        simp only [List.nil_append] at hih
        simp [chunk, ht, hih]
    · have htc : '\n' ∉ tmp ++ [c] := by
        intro hm
        rcases List.mem_append.mp hm with hm | hm
        · exact h hm
        · exact hc (List.mem_singleton.mp hm).symm
      have : tmp ++ c :: rest = (tmp ++ [c]) ++ rest := by simp
      rw [this]
      simpa [chunk, hc] using ih (tmp ++ [c]) htc

theorem chunkFold_eq_chunk_join (parse : String → α) (chunks : List (List Char)) :
    ∀ pend, chunkFold parse pend chunks = chunk parse chunks.flatten pend := by
  induction chunks with
  | nil => intro pend; simp [chunkFold, chunk]
  | cons ck rest ih =>
    intro pend
    simp only [chunkFold, ih, List.flatten_cons, chunk_append]

/-- C2: for every input stream and every way of splitting it into
    consecutive chunks, feeding the chunks one at a time through `chunk`
    while carrying each call's returned leftover as the next call's
    pending buffer (starting from the empty string) emits exactly the
    same sequence of parsed documents (and ends with the same leftover)
    as calling `chunk` once on the whole stream. -/
theorem C2_chunk_boundary_independence (parse : String → α) (chunks : List (List Char)) :
    chunkFold parse [] chunks = chunk parse chunks.flatten [] :=
  chunkFold_eq_chunk_join parse chunks []

/-- C9: when the pending buffer contains no newline, the buffer returned
    by `chunk` contains no newline either; every newline-terminated
    segment is parsed and emitted within the same call (blank segments
    emitting nothing), and only the final unterminated segment is carried
    over. -/
theorem C9_pending_buffer_invariant (parse : String → α) (tmp input : List Char)
    (h : '\n' ∉ tmp) :
    ('\n' ∉ (chunk parse input tmp).2)
    ∧ (chunk parse input tmp).1
        = ((initSegs (splitLines (tmp ++ input))).filter (fun s => s ≠ [])).map
            (fun s => parse (String.mk s))
    ∧ (chunk parse input tmp).2 = lastSeg (splitLines (tmp ++ input)) := by
  refine ⟨chunk_leftover_no_newline parse input tmp h, ?_, ?_⟩
  · rw [chunk_segments parse input tmp h]
  · rw [chunk_segments parse input tmp h]

/-- Concrete instantiation of C9 at pending `"a"`, input `"b\n\nc"`. -/
theorem C9_pending_buffer_invariant_witness :
    ('\n' ∉ ['a'])
    ∧ (('\n' ∉ (chunk (fun s => s.length) "b\n\nc".data ['a']).2)
    ∧ (chunk (fun s => s.length) "b\n\nc".data ['a']).1
        = ((initSegs (splitLines (['a'] ++ "b\n\nc".data))).filter (fun s => s ≠ [])).map
            (fun s => (String.mk s).length)
    ∧ (chunk (fun s => s.length) "b\n\nc".data ['a']).2
        = lastSeg (splitLines (['a'] ++ "b\n\nc".data))) :=
  ⟨by decide, C9_pending_buffer_invariant (fun s => s.length) ['a'] "b\n\nc".data (by decide)⟩

/-! ## Collection writer (src/lib/adapter.js, exportDatabase lines 52-146) -/

/-- A collection as the adapter sees it: the `dirty` flag and the `data`
    document list.  Other Loki metadata fields are irrelevant to the
    persistence layer and omitted. -/
structure Collection (α : Type) where
  dirty : Bool
  data : List α
deriving DecidableEq

/-- One serialized document line: `JSON.stringify(document) + '\n'`. -/
def lineOf (stringify : α → String) (d : α) : List Char :=
  (stringify d).data ++ ['\n']

/-- Models `err1 || err2 || undefined` over callback error values. -/
def firstErr (a b : Option Unit) : Option Unit :=
  match a with
  | some e => some e
  | none => b

/-- Model of `_write(cb)` (lines 96-118): an empty batch is skipped with
    no descriptor write; otherwise the batch is emptied and written as one
    `descriptor.write` operation, whose asynchronous result is the next
    entry of the boolean script (indexed by the running count `wc` of
    write operations performed).  Returns the write operations performed,
    the new operation count, and the error passed to `cb`, if any. -/
def flushBatch (batch : List Char) (wc : ℕ) (script : ℕ → Bool) :
    List (List Char) × ℕ × Option Unit :=
  if batch = [] then ([], wc, none)
  else ([batch], wc + 1, if script wc then none else some ())

/-- Result of the `async.eachSeries` document loop: write operations
    performed so far, current batch buffer, write-operation count, and the
    error (`err1`) with which the series terminated, if any. -/
structure LoopOut where
  writes : List (List Char)
  batch : List Char
  wc : ℕ
  err : Option Unit
deriving DecidableEq

/-- Model of the `async.eachSeries(collection.data, ...)` loop
    (lines 120-133): each document is serialized and appended to the
    batch; when `didx % batchSize === 0` the batch is flushed through
    `_write`, and a write failure aborts the series with that error. -/
def writerLoop (stringify : α → String) (b : ℕ) (script : ℕ → Bool) :
    List α → ℕ → List Char → ℕ → LoopOut
  | [], _, batch, wc => ⟨[], batch, wc, none⟩
  | d :: rest, didx, batch, wc =>
    let batchA := batch ++ lineOf stringify d
    if didx % b = 0 then
      match flushBatch batchA wc script with
      | (ws, wcA, some _) => ⟨ws, [], wcA, some ()⟩
      | (ws, wcA, none) =>
        let r := writerLoop stringify b script rest (didx + 1) [] wcA
        ⟨ws ++ r.writes, r.batch, r.wc, r.err⟩
    else writerLoop stringify b script rest (didx + 1) batchA wc

/-- Observable outcome of writing one dirty collection: the contents of
    the `descriptor.write` operations performed in order, whether the
    descriptor was closed, and the error passed to `cnext`, if any. -/
structure WriterOut where
  writes : List (List Char)
  closed : Bool
  err : Option Unit
deriving DecidableEq

/-- Model of one dirty collection's export (lines 92-141): run the
    document loop, then the final residual `_write`, then close the
    descriptor (the close is unconditional in the source: it happens in
    the series' completion callback on both the success and the error
    path), finishing with `cnext(err1 || err2 || undefined)`. -/
def writeCollection (stringify : α → String) (b : ℕ) (docs : List α)
    (script : ℕ → Bool) : WriterOut :=
  let L := writerLoop stringify b script docs 0 [] 0
  let F := flushBatch L.batch L.wc script
  ⟨L.writes ++ F.1, true, firstErr L.err F.2.2⟩

/-- Per-collection observable outcome inside `exportDatabase`: whether a
    descriptor for the collection's file was opened, the writes performed
    on it, whether it was closed, and the collection's error outcome. -/
structure CollOut where
  opened : Bool
  writes : List (List Char)
  closed : Bool
  err : Option Unit
deriving DecidableEq

/-- Model of the `async.each` iteratee over collections (lines 86-141):
    a collection that is not dirty is skipped outright (`cnext()` with no
    file touched); a dirty one has a descriptor opened and is written via
    `writeCollection`. -/
def runCollection (stringify : α → String) (b : ℕ) (c : Collection α)
    (script : ℕ → Bool) : CollOut :=
  if c.dirty then
    let w := writeCollection stringify b c.data script
    ⟨true, w.writes, w.closed, w.err⟩
  else ⟨false, [], false, none⟩

/-- Indexed map, modelling `async.each`'s `(item, index)` iteration. -/
def mapWithIndex (f : ℕ → β → γ) : ℕ → List β → List γ
  | _, [] => []
  | i, c :: rest => f i c :: mapWithIndex f (i + 1) rest

/-- Observable outcome of `exportDatabase`: whether the metadata
    descriptor was closed, the per-collection outcomes (empty when the
    metadata write failed, since the collection loop never starts), and
    the value passed to the caller's callback (`none` = success). -/
structure ExportOut where
  metaClosed : Bool
  perColl : List CollOut
  outcome : Option Unit
deriving DecidableEq

/-- Model of `exportDatabase(name, database, callback)` (lines 52-146).
    `metaOk` is the asynchronous result of the metadata write: on failure
    the function returns `callback(result.error)` at once - without
    closing the metadata descriptor.  On success the descriptor is closed
    and every collection is processed independently (`async.each` starts
    all iteratees, so one collection's failure cannot stop another's
    writes); the callback receives the first collection error, if any. -/
def exportDatabase (stringify : α → String) (b : ℕ) (metaOk : Bool)
    (colls : List (Collection α)) (scripts : ℕ → ℕ → Bool) : ExportOut :=
  if metaOk then
    let per := mapWithIndex (fun i c => runCollection stringify b c (scripts i)) 0 colls
    ⟨true, per, (per.filterMap (fun r => r.err)).head?⟩
  else ⟨false, [], some ()⟩

/-- The observable per-collection record of an export, defaulting to the
    untouched record for a collection the export never processed. -/
def collOutcome (out : ExportOut) (i : ℕ) : CollOut :=
  (out.perColl.get? i).getD ⟨false, [], false, none⟩

theorem lineOf_ne_nil (stringify : α → String) (d : α) : lineOf stringify d ≠ [] := by
  simp [lineOf]

theorem mapWithIndex_get? (f : ℕ → β → γ) : ∀ (l : List β) (n i : ℕ),
    (mapWithIndex f n l).get? i = (l.get? i).map (f (n + i)) := by
  intro l
  induction l with
  | nil => intro n i; simp [mapWithIndex]
  | cons c rest ih =>
    intro n i
    cases i with
    | zero => simp [mapWithIndex]
    | succ j =>
      simp only [mapWithIndex, List.get?_cons_succ, ih (n + 1) j]
      have h2 : n + 1 + j = n + (j + 1) := by omega
      rw [h2]

theorem flushBatch_ne (batch : List Char) (wc : ℕ) (script : ℕ → Bool)
    (h : batch ≠ []) :
    flushBatch batch wc script
      = ([batch], wc + 1, if script wc then none else some ()) := by
  simp [flushBatch, h]

theorem batch_line_ne_nil (stringify : α → String) (batch : List Char) (d : α) :
    batch ++ lineOf stringify d ≠ [] := by
  simp [lineOf]

/-- The write-operation counter counts exactly the writes performed. -/
theorem writerLoop_wc (stringify : α → String) (b : ℕ) (script : ℕ → Bool) :
    ∀ (docs : List α) (didx : ℕ) (batch : List Char) (wc : ℕ),
      (writerLoop stringify b script docs didx batch wc).wc
        = wc + (writerLoop stringify b script docs didx batch wc).writes.length := by
  intro docs
  induction docs with
  | nil => intro didx batch wc; simp [writerLoop]
  | cons d rest ih =>
    intro didx batch wc
    by_cases h0 : didx % b = 0
    · by_cases hsw : script wc
      · simp only [writerLoop, if_pos h0,
          flushBatch_ne _ _ _ (batch_line_ne_nil stringify batch d), if_pos hsw]
        simp only [ih (didx + 1) [] (wc + 1), List.length_append, List.length_cons,
          List.length_nil]
        omega
      · simp only [writerLoop, if_pos h0,
          flushBatch_ne _ _ _ (batch_line_ne_nil stringify batch d),
          if_neg hsw]
        simp
    · simp only [writerLoop, if_neg h0]
      exact ih (didx + 1) (batch ++ lineOf stringify d) wc

/-- On the all-success script the loop reports no error and the writes
    performed so far plus the residual batch are exactly the serialized
    lines of the documents consumed, in order. -/
theorem writerLoop_flatten (stringify : α → String) (b : ℕ) :
    ∀ (docs : List α) (didx : ℕ) (batch : List Char) (wc : ℕ),
      (writerLoop stringify b (fun _ => true) docs didx batch wc).err = none
      ∧ (writerLoop stringify b (fun _ => true) docs didx batch wc).writes.flatten
          ++ (writerLoop stringify b (fun _ => true) docs didx batch wc).batch
        = batch ++ (docs.map (lineOf stringify)).flatten := by
  intro docs
  induction docs with
  | nil => intro didx batch wc; simp [writerLoop]
  | cons d rest ih =>
    intro didx batch wc
    by_cases h0 : didx % b = 0
    · simp only [writerLoop, if_pos h0,
        flushBatch_ne _ _ _ (batch_line_ne_nil stringify batch d), if_pos rfl]
      obtain ⟨he, hj⟩ := ih (didx + 1) [] (wc + 1)
      simp only [List.nil_append] at hj
      simp [he, hj, List.append_assoc]
    · simp only [writerLoop, if_neg h0]
      obtain ⟨he, hj⟩ := ih (didx + 1) (batch ++ lineOf stringify d) wc
      simp [he, hj, List.append_assoc]

/-- The full contents written for a dirty collection on the all-success
    script: the concatenation of all batch writes is exactly the
    newline-terminated serialization of every document, in order. -/
theorem writeCollection_flatten (stringify : α → String) (b : ℕ) (docs : List α) :
    (writeCollection stringify b docs (fun _ => true)).err = none
    ∧ (writeCollection stringify b docs (fun _ => true)).writes.flatten
        = (docs.map (lineOf stringify)).flatten := by
  obtain ⟨he, hj⟩ := writerLoop_flatten stringify b docs 0 [] 0
  simp only [List.nil_append] at hj
  unfold writeCollection
  by_cases hb : (writerLoop stringify b (fun _ => true) docs 0 [] 0).batch = []
  · simp [flushBatch, hb, he, firstErr]
    simpa [hb] using hj
  · simp [flushBatch_ne _ _ _ hb, he, firstErr]
    simpa using hj

theorem writerLoop_cons_flush_true (stringify : α → String) (b : ℕ) (script : ℕ → Bool)
    (d : α) (rest : List α) (didx : ℕ) (batch : List Char) (wc : ℕ)
    (h0 : didx % b = 0) (hsw : script wc = true) :
    writerLoop stringify b script (d :: rest) didx batch wc
      = ⟨(batch ++ lineOf stringify d)
            :: (writerLoop stringify b script rest (didx + 1) [] (wc + 1)).writes,
         (writerLoop stringify b script rest (didx + 1) [] (wc + 1)).batch,
         (writerLoop stringify b script rest (didx + 1) [] (wc + 1)).wc,
         (writerLoop stringify b script rest (didx + 1) [] (wc + 1)).err⟩ := by
  simp [writerLoop, h0, flushBatch_ne _ _ _ (batch_line_ne_nil stringify batch d), hsw]

theorem writerLoop_cons_flush_false (stringify : α → String) (b : ℕ) (script : ℕ → Bool)
    (d : α) (rest : List α) (didx : ℕ) (batch : List Char) (wc : ℕ)
    (h0 : didx % b = 0) (hsw : script wc = false) :
    writerLoop stringify b script (d :: rest) didx batch wc
      = ⟨[batch ++ lineOf stringify d], [], wc + 1, some ()⟩ := by
  simp [writerLoop, h0, flushBatch_ne _ _ _ (batch_line_ne_nil stringify batch d), hsw]

theorem writerLoop_cons_noflush (stringify : α → String) (b : ℕ) (script : ℕ → Bool)
    (d : α) (rest : List α) (didx : ℕ) (batch : List Char) (wc : ℕ)
    (h0 : ¬didx % b = 0) :
    writerLoop stringify b script (d :: rest) didx batch wc
      = writerLoop stringify b script rest (didx + 1) (batch ++ lineOf stringify d) wc := by
  simp [writerLoop, h0]

/-- Behaviour of the document loop under a script whose first failing
    write is the one with index `k`: up to and including write `k` the
    run coincides with the all-success run, and an actual failure aborts
    the series with the error and an emptied batch. -/
theorem writerLoop_failure (stringify : α → String) (b : ℕ) (script : ℕ → Bool) (k : ℕ)
    (hk : ∀ j, j < k → script j = true) (hkf : script k = false) :
    ∀ (docs : List α) (didx : ℕ) (batch : List Char) (wc : ℕ), wc ≤ k →
      (k < wc + (writerLoop stringify b (fun _ => true) docs didx batch wc).writes.length →
        (writerLoop stringify b script docs didx batch wc).writes
            = (writerLoop stringify b (fun _ => true) docs didx batch wc).writes.take
                (k + 1 - wc)
          ∧ (writerLoop stringify b script docs didx batch wc).err = some ()
          ∧ (writerLoop stringify b script docs didx batch wc).batch = [])
      ∧ (wc + (writerLoop stringify b (fun _ => true) docs didx batch wc).writes.length ≤ k →
        writerLoop stringify b script docs didx batch wc
          = writerLoop stringify b (fun _ => true) docs didx batch wc) := by
  intro docs
  induction docs with
  | nil =>
    intro didx batch wc hwk
    refine ⟨fun hlt => absurd hlt ?_, fun _ => rfl⟩
    simp [writerLoop]
    omega
  | cons d rest ih =>
    intro didx batch wc hwk
    by_cases h0 : didx % b = 0
    · rcases Nat.lt_or_ge wc k with hlt | hge
      · have hsw : script wc = true := hk wc hlt
        rw [writerLoop_cons_flush_true stringify b script d rest didx batch wc h0 hsw,
          writerLoop_cons_flush_true stringify b (fun _ => true) d rest didx batch wc h0 rfl]
        obtain ⟨ih1, ih2⟩ := ih (didx + 1) [] (wc + 1) (by omega)
        constructor
        · intro hcond
          simp only [List.length_cons] at hcond
          obtain ⟨hw, he, hb2⟩ := ih1 (by omega)
          have hk1 : k + 1 - wc = (k + 1 - (wc + 1)) + 1 := by omega
          simp [hw, he, hb2, hk1, List.take_succ_cons]
        · intro hcond
          simp only [List.length_cons] at hcond
          have := ih2 (by omega)
          simp [this]
      · have hwck : wc = k := by omega
        have hsw : script wc = false := by rw [hwck]; exact hkf
        rw [writerLoop_cons_flush_false stringify b script d rest didx batch wc h0 hsw,
          writerLoop_cons_flush_true stringify b (fun _ => true) d rest didx batch wc h0 rfl]
        constructor
        · intro _
          have hk1 : k + 1 - wc = 1 := by omega
          simp [hk1]
        · intro hcond
          simp only [List.length_cons] at hcond
          omega
    · rw [writerLoop_cons_noflush stringify b script d rest didx batch wc h0,
        writerLoop_cons_noflush stringify b (fun _ => true) d rest didx batch wc h0]
      exact ih (didx + 1) (batch ++ lineOf stringify d) wc hwk

theorem flushBatch_len_le (batch : List Char) (wc : ℕ) (script : ℕ → Bool) :
    (flushBatch batch wc script).1.length ≤ 1 := by
  by_cases h : batch = [] <;> simp [flushBatch, h]

/-- Write failure at operation `k` of a collection write: the writes
    performed are exactly the first `k + 1` of the all-success run (so no
    write after the failed one), the descriptor is still closed, and the
    error is the collection's outcome. -/
theorem writeCollection_failure (stringify : α → String) (b : ℕ) (docs : List α)
    (script : ℕ → Bool) (k : ℕ)
    (hk : ∀ j, j < k → script j = true) (hkf : script k = false)
    (hlt : k < (writeCollection stringify b docs (fun _ => true)).writes.length) :
    (writeCollection stringify b docs script).writes
        = (writeCollection stringify b docs (fun _ => true)).writes.take (k + 1)
    ∧ (writeCollection stringify b docs script).closed = true
    ∧ (writeCollection stringify b docs script).err = some () := by
  have main := writerLoop_failure stringify b script k hk hkf docs 0 [] 0 (Nat.zero_le k)
  have hAerr := (writerLoop_flatten stringify b docs 0 [] 0).1
  have hAwc := writerLoop_wc stringify b (fun _ => true) docs 0 [] 0
  rcases Nat.lt_or_ge k (writerLoop stringify b (fun _ => true) docs 0 [] 0).writes.length
    with hc | hc
  · obtain ⟨hw, he, hb2⟩ := main.1 (by omega)
    unfold writeCollection
    simp only [hw, he, hb2]
    constructor
    · simp only [flushBatch, if_pos rfl, List.append_nil]
      rw [List.take_append_of_le_length (by omega)]
      simp
    · simp [firstErr]
  · have hSA := main.2 (by omega)
    have hFA := flushBatch_len_le
      (writerLoop stringify b (fun _ => true) docs 0 [] 0).batch
      (writerLoop stringify b (fun _ => true) docs 0 [] 0).wc (fun _ => true)
    simp only [writeCollection, List.length_append] at hlt
    have hkeq : k = (writerLoop stringify b (fun _ => true) docs 0 [] 0).writes.length := by
      omega
    have hbne : (writerLoop stringify b (fun _ => true) docs 0 [] 0).batch ≠ [] := by
      intro hnil
      rw [flushBatch, if_pos hnil] at hlt
      simp at hlt
      omega
    rw [Nat.zero_add] at hAwc
    have hsw : script ((writerLoop stringify b (fun _ => true) docs 0 [] 0).wc) = false := by
      rw [hAwc, ← hkeq]; exact hkf
    simp only [writeCollection, hSA, hAerr, flushBatch_ne _ _ _ hbne, hsw,
      Bool.false_eq_true, if_false, if_true, firstErr]
    refine ⟨?_, by trivial, ?_⟩
    · have hlen : ((writerLoop stringify b (fun _ => true) docs 0 [] 0).writes
          ++ [(writerLoop stringify b (fun _ => true) docs 0 [] 0).batch]).length
            = k + 1 := by
        simp [hkeq]
      rw [← hlen, List.take_length]
    · simp

/-- Abstract recursion giving, for each in-loop flush, the number of
    documents it contains, together with the number of documents left in
    the residual batch; mirrors the loop's flush trigger
    `didx % batchSize === 0`. -/
def flushCountsLoop (b : ℕ) : ℕ → ℕ → ℕ → List ℕ × ℕ
  | 0, _, k => ([], k)
  | n + 1, didx, k =>
    if didx % b = 0 then
      let r := flushCountsLoop b n (didx + 1) 0
      ((k + 1) :: r.1, r.2)
    else flushCountsLoop b n (didx + 1) (k + 1)

/-- Document count of every write operation a collection export of `n`
    documents performs, in order (in-loop flushes plus the residual one
    when the residual batch is non-empty). -/
def flushCounts (b n : ℕ) : List ℕ :=
  let r := flushCountsLoop b n 0 0
  r.1 ++ (if r.2 = 0 then [] else [r.2])

theorem count_batch_line (stringify : α → String) (batch : List Char) (d : α)
    (hd : '\n' ∉ (stringify d).data) :
    (batch ++ lineOf stringify d).count '\n' = batch.count '\n' + 1 := by
  simp [lineOf, List.count_append, List.count_eq_zero.mpr hd]

/-- Bridge between the loop on actual documents (all-success script) and
    the abstract per-flush document counts. -/
theorem writerLoop_counts (stringify : α → String) (b : ℕ) :
    ∀ (docs : List α) (didx : ℕ) (batch : List Char) (k wc : ℕ),
      (∀ d ∈ docs, '\n' ∉ (stringify d).data) →
      batch.count '\n' = k → (batch = [] ↔ k = 0) →
      ((writerLoop stringify b (fun _ => true) docs didx batch wc).writes.map
          (fun w => w.count '\n') = (flushCountsLoop b docs.length didx k).1
        ∧ (writerLoop stringify b (fun _ => true) docs didx batch wc).batch.count '\n'
            = (flushCountsLoop b docs.length didx k).2
        ∧ ((writerLoop stringify b (fun _ => true) docs didx batch wc).batch = []
            ↔ (flushCountsLoop b docs.length didx k).2 = 0)) := by
  intro docs
  induction docs with
  | nil =>
    intro didx batch k wc _ hbk hbe
    simp [writerLoop, flushCountsLoop, hbk, hbe]
  | cons d rest ih =>
    intro didx batch k wc hnl hbk hbe
    have hd : '\n' ∉ (stringify d).data := hnl d (List.mem_cons_self d rest)
    have hrest : ∀ x ∈ rest, '\n' ∉ (stringify x).data :=
      fun x hx => hnl x (List.mem_cons_of_mem d hx)
    by_cases h0 : didx % b = 0
    · rw [writerLoop_cons_flush_true stringify b (fun _ => true) d rest didx batch wc h0 rfl]
      obtain ⟨ihw, ihb, ihe⟩ := ih (didx + 1) [] 0 (wc + 1) hrest (by simp) (by simp)
      have hcnt : (batch ++ lineOf stringify d).count '\n' = k + 1 := by
        rw [count_batch_line stringify batch d hd, hbk]
      simp [List.length_cons, flushCountsLoop, h0, hcnt, ihw, ihb, ihe]
    · rw [writerLoop_cons_noflush stringify b (fun _ => true) d rest didx batch wc h0]
      have hcnt : (batch ++ lineOf stringify d).count '\n' = k + 1 := by
        rw [count_batch_line stringify batch d hd, hbk]
      have hne : (batch ++ lineOf stringify d = []) ↔ (k + 1 = 0) := by
        constructor
        · intro h; exact absurd h (batch_line_ne_nil stringify batch d)
        · intro h; exact absurd h (Nat.succ_ne_zero k)
      obtain ⟨ihw, ihb, ihe⟩ := ih (didx + 1) (batch ++ lineOf stringify d) (k + 1) wc
        hrest hcnt hne
      simp only [List.length_cons, flushCountsLoop, if_neg h0]
      exact ⟨ihw, ihb, ihe⟩

/-- On the all-success script, the per-write document counts of a
    collection export are exactly `flushCounts b docs.length`. -/
theorem writeCollection_counts (stringify : α → String) (b : ℕ) (docs : List α)
    (hnl : ∀ d ∈ docs, '\n' ∉ (stringify d).data) :
    (writeCollection stringify b docs (fun _ => true)).writes.map (fun w => w.count '\n')
      = flushCounts b docs.length := by
  obtain ⟨hw, hb2, he⟩ := writerLoop_counts stringify b docs 0 [] 0 0 hnl (by simp) (by simp)
  simp only [writeCollection, flushCounts, List.map_append, hw]
  by_cases hnil : (writerLoop stringify b (fun _ => true) docs 0 [] 0).batch = []
  · have hk0 : (flushCountsLoop b docs.length 0 0).2 = 0 := he.mp hnil
    simp [flushBatch, hnil, hk0]
  · have hk0 : ¬(flushCountsLoop b docs.length 0 0).2 = 0 := fun h => hnil (he.mpr h)
    simp only [flushBatch_ne _ _ _ hnil, hk0, if_false, if_true, List.map_cons,
      List.map_nil, hb2]

/-- C5 counterexample: exporting 101 documents with batch size 25
    performs 5 writes whose document counts are, in order,
    `[1, 25, 25, 25, 25]` - the single-document flush happens first (at
    index 0) and the last in-loop batch is full, with no residual write;
    the claimed shape of four full batches followed by a residual flush
    of one document is wrong. -/
theorem C5_batch_shape_counterexample :
    ((writeCollection (fun _ : ℕ => "d") 25 (List.range 101) (fun _ => true)).writes.map
        (fun w => w.count '\n') = [1, 25, 25, 25, 25])
    ∧ ((writeCollection (fun _ : ℕ => "d") 25 (List.range 101) (fun _ => true)).writes.map
        (fun w => w.count '\n') ≠ [25, 25, 25, 25, 1]) := by
  constructor
  · decide
  · decide

/-- C5 amended: exporting a dirty collection of exactly 101 documents
    with batch size 25 performs exactly 5 write operations, consisting of
    an initial flush of 1 document (index 0 satisfies the modulo flush
    condition) followed by 4 full batches of 25; the post-loop residual
    flush writes nothing because the batch is empty. -/
theorem C5_batch_determinism_amended (stringify : α → String) (docs : List α)
    (h101 : docs.length = 101) (hnl : ∀ d ∈ docs, '\n' ∉ (stringify d).data) :
    (writeCollection stringify 25 docs (fun _ => true)).writes.map (fun w => w.count '\n')
        = [1, 25, 25, 25, 25]
    ∧ (writeCollection stringify 25 docs (fun _ => true)).writes.length = 5 := by
  have h := writeCollection_counts stringify 25 docs hnl
  rw [h101] at h
  have hc : flushCounts 25 101 = [1, 25, 25, 25, 25] := by decide
  rw [hc] at h
  refine ⟨h, ?_⟩
  have := congrArg List.length h
  simpa using this

/-- Concrete instantiation of the amended C5 at 101 single-character
    documents. -/
theorem C5_batch_determinism_amended_witness :
    ((List.range 101).length = 101
      ∧ (∀ d ∈ List.range 101, '\n' ∉ ((fun _ : ℕ => "d") d).data))
    ∧ ((writeCollection (fun _ : ℕ => "d") 25 (List.range 101) (fun _ => true)).writes.map
          (fun w => w.count '\n') = [1, 25, 25, 25, 25]
      ∧ (writeCollection (fun _ : ℕ => "d") 25 (List.range 101) (fun _ => true)).writes.length
          = 5) :=
  ⟨⟨by decide, by decide⟩,
   C5_batch_determinism_amended (fun _ : ℕ => "d") (List.range 101) (by decide) (by decide)⟩

/-- C6: if the batch write with operation index `k` of a collection
    export fails (all earlier ones succeeding), then no write operation
    beyond it is performed for that collection (the writes are exactly
    the first `k + 1` of the all-success run), the descriptor is still
    closed, and the error is that collection's outcome; and a
    collection's outcome inside `exportDatabase` depends only on its own
    write script, so a failure in one collection does not abort the
    writes of any sibling collection. -/
theorem C6_write_failure_isolation :
    (∀ (α : Type) (stringify : α → String) (b : ℕ) (docs : List α) (script : ℕ → Bool)
        (k : ℕ), (∀ j, j < k → script j = true) → script k = false →
        k < (writeCollection stringify b docs (fun _ => true)).writes.length →
        (writeCollection stringify b docs script).writes
            = (writeCollection stringify b docs (fun _ => true)).writes.take (k + 1)
          ∧ (writeCollection stringify b docs script).closed = true
          ∧ (writeCollection stringify b docs script).err = some ())
    ∧ (∀ (α : Type) (stringify : α → String) (b : ℕ) (metaOk : Bool)
        (colls : List (Collection α)) (scripts1 scripts2 : ℕ → ℕ → Bool) (j : ℕ),
        scripts1 j = scripts2 j →
        (exportDatabase stringify b metaOk colls scripts1).perColl.get? j
          = (exportDatabase stringify b metaOk colls scripts2).perColl.get? j) := by
  constructor
  · intro α stringify b docs script k hk hkf hlt
    exact writeCollection_failure stringify b docs script k hk hkf hlt
  · intro α stringify b metaOk colls scripts1 scripts2 j hj
    cases metaOk with
    | false => rfl
    | true =>
      simp only [exportDatabase, if_true, mapWithIndex_get?, Nat.zero_add, hj]

/-- Concrete instantiation of C6 at three one-character documents, batch
    size 2, and a script whose write 0 fails. -/
theorem C6_write_failure_isolation_witness :
    ((∀ j, j < 0 → (fun _ : ℕ => false) j = true)
      ∧ (fun _ : ℕ => false) 0 = false
      ∧ 0 < (writeCollection (fun _ : ℕ => "d") 2 [0, 1, 2] (fun _ => true)).writes.length)
    ∧ ((writeCollection (fun _ : ℕ => "d") 2 [0, 1, 2] (fun _ => false)).writes
          = (writeCollection (fun _ : ℕ => "d") 2 [0, 1, 2] (fun _ => true)).writes.take
              (0 + 1)
        ∧ (writeCollection (fun _ : ℕ => "d") 2 [0, 1, 2] (fun _ => false)).closed = true
        ∧ (writeCollection (fun _ : ℕ => "d") 2 [0, 1, 2] (fun _ => false)).err = some ()) :=
  ⟨⟨fun j hj => absurd hj (Nat.not_lt_zero j), rfl, by decide⟩,
   C6_write_failure_isolation.1 ℕ (fun _ : ℕ => "d") 2 [0, 1, 2] (fun _ => false) 0
     (fun j hj => absurd hj (Nat.not_lt_zero j)) rfl (by decide)⟩

/-- C7: a collection whose dirty flag is false is skipped by
    `exportDatabase`: no descriptor is opened for it, zero write
    operations are performed for it, and it contributes no error. -/
theorem C7_dirty_skip (stringify : α → String) (b : ℕ) (metaOk : Bool)
    (colls : List (Collection α)) (scripts : ℕ → ℕ → Bool) (i : ℕ) (c : Collection α)
    (hget : colls.get? i = some c) (hdirty : c.dirty = false) :
    collOutcome (exportDatabase stringify b metaOk colls scripts) i
      = ⟨false, [], false, none⟩ := by
  cases metaOk with
  | false => rfl
  | true =>
    simp only [collOutcome, exportDatabase, if_true, mapWithIndex_get?, Nat.zero_add, hget]
    simp [runCollection, hdirty]

/-- Concrete instantiation of C7 at a single clean collection. -/
theorem C7_dirty_skip_witness :
    (([(⟨false, [0]⟩ : Collection ℕ)].get? 0 = some ⟨false, [0]⟩)
      ∧ (⟨false, [(0 : ℕ)]⟩ : Collection ℕ).dirty = false)
    ∧ collOutcome
        (exportDatabase (fun _ : ℕ => "x") 25 true [⟨false, [0]⟩] (fun _ _ => true)) 0
        = ⟨false, [], false, none⟩ :=
  ⟨⟨rfl, rfl⟩,
   C7_dirty_skip (fun _ : ℕ => "x") 25 true [⟨false, [0]⟩] (fun _ _ => true) 0
     ⟨false, [0]⟩ rfl rfl⟩

/-- C10: for a dirty collection with at least one document and batch
    size at least 2, the very first write operation contains exactly the
    one serialized line of the document at index 0, because
    `0 % batchSize === 0` triggers a flush immediately after the first
    document is appended. -/
theorem C10_first_flush_single_document (stringify : α → String) (b : ℕ) (d : α)
    (rest : List α) (hb : 2 ≤ b) :
    (writeCollection stringify b (d :: rest) (fun _ => true)).writes.head?
      = some (lineOf stringify d) := by
  simp only [writeCollection,
    writerLoop_cons_flush_true stringify b (fun _ => true) d rest 0 [] 0 (Nat.zero_mod b) rfl,
    List.nil_append, List.cons_append, List.head?_cons]

/-- Concrete instantiation of C10 at a single document and batch size 25. -/
theorem C10_first_flush_single_document_witness :
    2 ≤ 25
    ∧ (writeCollection (fun _ : ℕ => "x") 25 [7] (fun _ => true)).writes.head?
        = some (lineOf (fun _ : ℕ => "x") 7) :=
  ⟨by decide, C10_first_flush_single_document (fun _ : ℕ => "x") 25 7 [] (by decide)⟩

/-! ## Collection reader and loadDatabase (src/lib/adapter.js lines 156-238) -/

/-- The asynchronous result delivered to one `stream.read` callback:
    either a successful read carrying the chunk of characters read, or a
    failed read (`result.success === false`; in this environment a read
    at end-of-stream reports failure). -/
inductive REv
  | ok (s : List Char)
  | fail
deriving DecidableEq

/-- Observable outcome of one collection's `_read`/`_complete` loop
    (lines 183-229): the documents pushed onto `collection.data` in
    order, whether `stream.close()` was invoked, and the error passed to
    the per-collection callback `next`, if any. -/
structure ReadOut (α : Type) where
  emitted : List α
  closed : Bool
  err : Option Unit
deriving DecidableEq

/-- Model of the `_read` loop.  `parsedPrev` is the source's `parsed`
    variable: the byte count of the previous successful read (initially
    0).  A failed read with `parsed` still 0 surfaces the error via
    `next(result.error)` - without closing the stream; a failed read
    after data was read is treated as end-of-stream and runs
    `_complete`, which feeds the leftover `offset` through
    `_chunk('', offset, ...)` once more, closes the stream, and calls
    `next()` with no error.  A successful read feeds its chunk through
    the codec and iterates only while its byte count equals the buffer
    capacity; otherwise it completes.  An exhausted script models
    further reads at end-of-stream, which report failure. -/
def readLoop (parse : String → α) (cap : ℕ) :
    List REv → ℕ → List Char → ReadOut α
  | [], parsedPrev, pending =>
    if parsedPrev = 0 then ⟨[], false, some ()⟩
    else ⟨(chunk parse pending []).1, true, none⟩
  | REv.fail :: _, parsedPrev, pending =>
    if parsedPrev = 0 then ⟨[], false, some ()⟩
    else ⟨(chunk parse pending []).1, true, none⟩
  | REv.ok s :: rest, _, pending =>
    let r1 := chunk parse s pending
    if s.length = cap then
      let r := readLoop parse cap rest s.length r1.2
      ⟨r1.1 ++ r.emitted, r.closed, r.err⟩
    else ⟨r1.1 ++ (chunk parse r1.2 []).1, true, none⟩

/-- The value `loadDatabase` passes to its caller's callback.  The
    source has exactly two callback call sites: `callback(undefined)`
    when the metadata file is absent, and `callback(database)` from the
    `async.each` completion handler - which takes no error parameter, so
    a per-collection error can never reach the caller.  The `error`
    constructor exists to state the spec's claimed error outcome. -/
inductive LoadRes (α : Type)
  | notFound
  | loaded (colls : List (Collection α))
  | error (e : Unit)
deriving DecidableEq

/-- Observable outcome of `loadDatabase`: the callback value and the
    per-collection reader traces (empty when the metadata was absent,
    since no collection read starts). -/
structure LoadOut (α : Type) where
  res : LoadRes α
  reads : List (ReadOut α)
deriving DecidableEq

/-- Model of `loadDatabase(name, callback)` (lines 156-238).  `meta` is
    the parsed metadata file contents (`none` when the file does not
    exist: the collections recorded there, whose `data` lists were
    cleared at export time).  Every collection's documents are read
    independently and pushed onto that collection's `data`; the final
    `async.each` callback ignores any error and hands the caller the
    database. -/
def loadDatabase (parse : String → α) (cap : ℕ)
    (meta : Option (List (Collection α))) (scripts : ℕ → List REv) : LoadOut α :=
  match meta with
  | none => ⟨LoadRes.notFound, []⟩
  | some colls =>
    ⟨LoadRes.loaded (mapWithIndex
        (fun i c => ⟨c.dirty, c.data ++ (readLoop parse cap (scripts i) 0 []).emitted⟩)
        0 colls),
      mapWithIndex (fun i _ => readLoop parse cap (scripts i) 0 []) 0 colls⟩

/-- The successive chunks a reader with buffer capacity `cap` receives
    for a file with the given contents: every read delivers `cap`
    characters while at least that many remain, then the remainder.  The
    fuel argument bounds the recursion; `content.length` suffices
    whenever `cap ≥ 1`. -/
def chunksOfF (cap : ℕ) : ℕ → List Char → List (List Char)
  | 0, _ => []
  | _ + 1, [] => []
  | fuel + 1, c :: cs => (c :: cs).take cap :: chunksOfF cap fuel ((c :: cs).drop cap)

/-- The read-result script of a collection file with the given contents
    on an error-free filesystem: each chunk is delivered by a successful
    read, and any further read (at end-of-stream) fails. -/
def scriptOfContent (cap : ℕ) (content : List Char) : List REv :=
  (chunksOfF cap content.length content).map REv.ok

/-- The file contents an export produced for collection `i`: the
    concatenation of the writes performed on its descriptor (the empty
    file if the export never wrote it). -/
def fileOf (out : ExportOut) (i : ℕ) : List Char :=
  ((out.perColl.get? i).map (fun r => r.writes.flatten)).getD []

theorem readLoop_nil_content (parse : String → α) (cap : ℕ) (fuel : ℕ)
    (pending : List Char) (pp : ℕ) (hnl : '\n' ∉ pending) :
    (readLoop parse cap ((chunksOfF cap fuel []).map REv.ok) pp pending).emitted = [] := by
  have hc : chunksOfF cap fuel [] = [] := by
    cases fuel <;> rfl
  rw [hc]
  by_cases hpp : pp = 0
  · simp [readLoop, hpp]
  · simp [readLoop, hpp, chunk_no_newline parse pending [] hnl]

/-- Reading a file in capacity-sized chunks through the codec emits
    exactly what a single codec pass over the whole contents emits: the
    end-of-stream flush contributes nothing because the carried-over
    buffer never contains a newline. -/
theorem readLoop_chunks (parse : String → α) (cap : ℕ) (hcap : 1 ≤ cap) :
    ∀ (fuel : ℕ) (content : List Char), content.length ≤ fuel →
    ∀ (pending : List Char) (pp : ℕ), '\n' ∉ pending →
      (readLoop parse cap ((chunksOfF cap fuel content).map REv.ok) pp pending).emitted
        = (chunk parse content pending).1 := by
  intro fuel
  induction fuel with
  | zero =>
    intro content hlen pending pp hnl
    have hcon : content = [] := List.eq_nil_of_length_eq_zero (Nat.le_zero.mp hlen)
    subst hcon
    rw [readLoop_nil_content parse cap 0 pending pp hnl]
    simp [chunk]
  | succ fuel ih =>
    intro content hlen pending pp hnl
    cases content with
    | nil =>
      rw [readLoop_nil_content parse cap (fuel + 1) pending pp hnl]
      simp [chunk]
    | cons c cs =>
      simp only [chunksOfF, List.map_cons, readLoop]
      by_cases hfull : ((c :: cs).take cap).length = cap
      · simp only [hfull, if_pos rfl]
        have hpnl : '\n' ∉ (chunk parse ((c :: cs).take cap) pending).2 :=
          chunk_leftover_no_newline parse ((c :: cs).take cap) pending hnl
        have hdlen : ((c :: cs).drop cap).length ≤ fuel := by
          rw [List.length_drop]
          have := hlen
          omega
        rw [ih ((c :: cs).drop cap) hdlen _ _ hpnl]
        have hsplit := List.take_append_drop cap (c :: cs)
        conv_rhs => rw [← hsplit]
        rw [chunk_append]
        simp
      · simp only [hfull, if_false]
        have hlt : (c :: cs).length < cap := by
          rw [List.length_take] at hfull
          omega
        have htake : (c :: cs).take cap = c :: cs :=
          List.take_of_length_le (Nat.le_of_lt hlt)
        rw [htake]
        have hpnl : '\n' ∉ (chunk parse (c :: cs) pending).2 :=
          chunk_leftover_no_newline parse (c :: cs) pending hnl
        rw [chunk_no_newline parse _ [] hpnl]
        simp

/-- One codec pass over a file of newline-terminated, newline-free,
    non-empty lines emits exactly those lines, parsed, in order, and
    carries nothing over. -/
theorem chunk_join_lines (parse : String → α) :
    ∀ (lines : List (List Char)),
      (∀ l ∈ lines, '\n' ∉ l ∧ l ≠ []) →
      chunk parse ((lines.map (fun l => l ++ ['\n'])).flatten) []
        = (lines.map (fun l => parse (String.mk l)), []) := by
  intro lines
  induction lines with
  | nil => intro _; simp [chunk]
  | cons l rest ih =>
    intro h
    obtain ⟨hnl, hne⟩ := h l (List.mem_cons_self l rest)
    have hrest := fun x hx => h x (List.mem_cons_of_mem l hx)
    rw [List.map_cons, List.flatten_cons, chunk_append]
    have h1 : chunk parse (l ++ ['\n']) [] = ([parse (String.mk l)], []) := by
      rw [chunk_append, chunk_no_newline parse l [] hnl]
      simp [chunk, hne]
    rw [h1]
    simp [ih hrest]

theorem string_ne_empty_data {s : String} (h : s ≠ "") : s.data ≠ [] := by
  intro hd
  apply h
  cases s
  simp at hd
  simp [hd]

/-- Per-collection round trip: reading back, in capacity-sized chunks,
    the file an export wrote for a document list recovers exactly that
    document list. -/
theorem readColl_roundtrip (parse : String → α) (stringify : α → String) (b cap : ℕ)
    (hcap : 1 ≤ cap) (docs : List α)
    (hnl : ∀ d ∈ docs, '\n' ∉ (stringify d).data)
    (hne : ∀ d ∈ docs, stringify d ≠ "")
    (hps : ∀ d ∈ docs, parse (stringify d) = d) :
    (readLoop parse cap (scriptOfContent cap
        ((writeCollection stringify b docs (fun _ => true)).writes.flatten)) 0 []).emitted
      = docs := by
  rw [scriptOfContent, (writeCollection_flatten stringify b docs).2]
  rw [readLoop_chunks parse cap hcap _ _ (Nat.le_refl _) [] 0 (List.not_mem_nil '\n')]
  have hmap : docs.map (lineOf stringify)
      = (docs.map (fun d => (stringify d).data)).map (fun l => l ++ ['\n']) := by
    rw [List.map_map]
    rfl
  have hlines : ∀ l ∈ docs.map (fun d => (stringify d).data), '\n' ∉ l ∧ l ≠ [] := by
    intro l hl
    obtain ⟨d, hd, hdl⟩ := List.mem_map.mp hl
    subst hdl
    exact ⟨hnl d hd, string_ne_empty_data (hne d hd)⟩
  rw [hmap, chunk_join_lines parse (docs.map (fun d => (stringify d).data)) hlines]
  show (docs.map (fun d => (stringify d).data)).map (fun l => parse (String.mk l)) = docs
  rw [List.map_map]
  have hcongr : ∀ d ∈ docs,
      ((fun l => parse (String.mk l)) ∘ fun d => (stringify d).data) d = id d := by
    intro d hd
    show parse (String.mk (stringify d).data) = d
    exact hps d hd
  rw [List.map_congr_left hcongr, List.map_id]

/-- C1: exporting a database whose collections are all dirty and whose
    documents serialize to newline-free, non-empty lines that parse back
    to themselves, then loading it (metadata parsed back as the cleared
    snapshot the export wrote, every collection file read in
    capacity-sized chunks), yields exactly the original collections -
    identical document sequences in identical order - for any batch size
    and buffer capacity at least 1. -/
theorem C1_round_trip (parse : String → α) (stringify : α → String) (b cap : ℕ)
    (colls : List (Collection α))
    (hb : 1 ≤ b) (hcap : 1 ≤ cap)
    (hdirty : ∀ c ∈ colls, c.dirty = true)
    (hnl : ∀ c ∈ colls, ∀ d ∈ c.data, '\n' ∉ (stringify d).data)
    (hne : ∀ c ∈ colls, ∀ d ∈ c.data, stringify d ≠ "")
    (hps : ∀ c ∈ colls, ∀ d ∈ c.data, parse (stringify d) = d) :
    (loadDatabase parse cap (some (colls.map (fun c => ⟨c.dirty, []⟩)))
        (fun i => scriptOfContent cap
          (fileOf (exportDatabase stringify b true colls (fun _ _ => true)) i))).res
      = LoadRes.loaded colls := by
  simp only [loadDatabase]
  congr 1
  apply List.ext
  intro i
  rw [mapWithIndex_get?, Nat.zero_add, List.get?_map]
  cases hci : colls.get? i with
  | none => simp
  | some c =>
    have hmem : c ∈ colls := List.get?_mem hci
    have hfile : fileOf (exportDatabase stringify b true colls (fun _ _ => true)) i
        = (writeCollection stringify b c.data (fun _ => true)).writes.flatten := by
      simp only [fileOf, exportDatabase, if_true, mapWithIndex_get?, Nat.zero_add, hci]
      simp [runCollection, hdirty c hmem]
    simp only [Option.map_some']
    rw [hfile,
      readColl_roundtrip parse stringify b cap hcap c.data (hnl c hmem) (hne c hmem)
        (hps c hmem)]
    simp

/-- Concrete instantiation of C1: one dirty collection of two boolean
    documents, batch size 1, buffer capacity 3. -/
theorem C1_round_trip_witness :
    ((1 ≤ 1 ∧ 1 ≤ 3)
      ∧ (∀ c ∈ [(⟨true, [true, false]⟩ : Collection Bool)], c.dirty = true)
      ∧ (∀ c ∈ [(⟨true, [true, false]⟩ : Collection Bool)], ∀ d ∈ c.data,
          '\n' ∉ ((fun x : Bool => cond x "true" "false") d).data)
      ∧ (∀ c ∈ [(⟨true, [true, false]⟩ : Collection Bool)], ∀ d ∈ c.data,
          (fun x : Bool => cond x "true" "false") d ≠ "")
      ∧ (∀ c ∈ [(⟨true, [true, false]⟩ : Collection Bool)], ∀ d ∈ c.data,
          (fun s => s == "true") ((fun x : Bool => cond x "true" "false") d) = d))
    ∧ (loadDatabase (fun s => s == "true") 3
        (some ([(⟨true, [true, false]⟩ : Collection Bool)].map (fun c => ⟨c.dirty, []⟩)))
        (fun i => scriptOfContent 3
          (fileOf (exportDatabase (fun x : Bool => cond x "true" "false") 1 true
            [⟨true, [true, false]⟩] (fun _ _ => true)) i))).res
      = LoadRes.loaded [⟨true, [true, false]⟩] :=
  ⟨⟨⟨by decide, by decide⟩, by decide, by decide, by decide, by decide⟩,
   C1_round_trip (fun s => s == "true") (fun x : Bool => cond x "true" "false") 1 3
     [⟨true, [true, false]⟩] (by decide) (by decide) (by decide) (by decide) (by decide)
     (by decide)⟩

/-- C4 counterexample: a load in which the single collection's first
    chunk read reports failure.  The read fails (its error reaches only
    the per-collection callback, recorded in the reader trace), yet the
    caller receives the loaded database - a plain success signal, not an
    error outcome. -/
theorem C4_read_failure_counterexample :
    (loadDatabase (fun s => s.length) 4 (some [⟨true, []⟩]) (fun _ => [REv.fail])).res
        = LoadRes.loaded [⟨true, []⟩]
    ∧ (loadDatabase (fun s => s.length) 4 (some [⟨true, []⟩]) (fun _ => [REv.fail])).reads
        = [⟨[], false, some ()⟩]
    ∧ (loadDatabase (fun s => s.length) 4 (some [⟨true, []⟩]) (fun _ => [REv.fail])).res
        ≠ LoadRes.error () := by
  refine ⟨rfl, rfl, ?_⟩
  intro h
  simp [loadDatabase, mapWithIndex] at h

/-- C4 amended: read failures never reach the loadDatabase caller.  The
    final callback always receives the database (never an error value);
    a failure on a collection's very first chunk read is passed to that
    collection's iteration callback as an error (leaving the stream
    open); and a failure after a full successful chunk read is treated
    as end-of-stream - the collection completes normally with no
    error. -/
theorem C4_load_error_swallowed :
    (∀ (α : Type) (parse : String → α) (cap : ℕ) (meta : Option (List (Collection α)))
        (scripts : ℕ → List REv),
        (loadDatabase parse cap meta scripts).res ≠ LoadRes.error ())
    ∧ (∀ (α : Type) (parse : String → α) (cap : ℕ) (evs : List REv) (pending : List Char),
        readLoop parse cap (REv.fail :: evs) 0 pending = ⟨[], false, some ()⟩)
    ∧ (∀ (α : Type) (parse : String → α) (cap : ℕ) (s : List Char) (evs : List REv)
        (pending : List Char), s.length = cap → 0 < cap →
        (readLoop parse cap (REv.ok s :: REv.fail :: evs) 0 pending).err = none
        ∧ (readLoop parse cap (REv.ok s :: REv.fail :: evs) 0 pending).closed = true) := by
  refine ⟨?_, ?_, ?_⟩
  · intro α parse cap meta scripts h
    cases meta with
    | none => simp [loadDatabase] at h
    | some colls => simp [loadDatabase] at h
  · intro α parse cap evs pending
    simp [readLoop]
  · intro α parse cap s evs pending hlen hcap
    have hppne : ¬s.length = 0 := by omega
    have hc0 : ¬cap = 0 := by omega
    simp [readLoop, hlen, hppne, hc0]

/-- Concrete instantiation of C4 amended: a failure after one full
    4-character chunk completes without error, and a load with absent
    metadata is likewise not an error outcome. -/
theorem C4_load_error_swallowed_witness :
    (("abcd".data.length = 4 ∧ 0 < 4)
      ∧ ((readLoop (fun s => s.length) 4 [REv.ok "abcd".data, REv.fail] 0 []).err = none
        ∧ (readLoop (fun s => s.length) 4 [REv.ok "abcd".data, REv.fail] 0 []).closed
            = true))
    ∧ (loadDatabase (fun s => s.length) 4 none (fun _ => [])).res ≠ LoadRes.error () :=
  ⟨⟨⟨by decide, by decide⟩,
    C4_load_error_swallowed.2.2 ℕ (fun s => s.length) 4 "abcd".data [] []
      (by decide) (by decide)⟩,
   C4_load_error_swallowed.1 ℕ (fun s => s.length) 4 none (fun _ => [])⟩

/-- C8: loading a database whose metadata file does not exist invokes
    the callback with `undefined` (the not-found signal) and performs no
    collection reads at all; `loadDatabase` contains no file-creating
    operation and the model is a total function, so nothing is created
    and nothing is thrown. -/
theorem C8_not_found (parse : String → α) (cap : ℕ) (scripts : ℕ → List REv) :
    loadDatabase parse cap none scripts = ⟨LoadRes.notFound, []⟩ := rfl

/-- C3 evidence for the descriptor-leak code bug: when the metadata
    write fails, `exportDatabase` returns `callback(result.error)`
    without `meta.close()` (metaClosed is false); when a collection's
    very first chunk read fails, `loadDatabase` runs
    `next(result.error)` without `stream.close()` (the reader trace
    shows closed = false).  On the corresponding success paths both
    descriptors are closed, and collection-writer descriptors are closed
    even on failure. -/
theorem C3_descriptor_close_evidence :
    ((exportDatabase (fun _ : ℕ => "x") 25 false [⟨true, [0]⟩] (fun _ _ => true)).metaClosed
        = false
      ∧ (exportDatabase (fun _ : ℕ => "x") 25 false [⟨true, [0]⟩]
          (fun _ _ => true)).outcome = some ())
    ∧ (exportDatabase (fun _ : ℕ => "x") 25 true [⟨true, [0]⟩] (fun _ _ => true)).metaClosed
        = true
    ∧ (loadDatabase (fun s => s.length) 4 (some [⟨true, []⟩])
        (fun _ => [REv.fail])).reads = [⟨[], false, some ()⟩]
    ∧ (readLoop (fun s : String => s.length) 4 [REv.ok "ab".data] 0 []).closed = true
    ∧ (writeCollection (fun _ : ℕ => "x") 25 [0] (fun _ => false)).closed = true := by
  refine ⟨⟨rfl, rfl⟩, rfl, rfl, by decide, by decide⟩

end Adapter
